import Mathlib

set_option linter.unusedSectionVars false

/-!
Verification development for the `loopback-visualizer` repository.

The definitions below are shallow embeddings of the C++ sources:

* `AudioRingBuffer`  — `src/audio_loopback/include/audio_loopback/audio_ring_buffer.h`
  (lock-free SPSC ring buffer; `Capacity` is a power of two, index arithmetic
  uses `x & (Capacity - 1)`, which for a power-of-two capacity equals
  `x % Capacity` — see `and_mask_eq_mod` below).
* `CaptureState` / `processMono` / `processStereo` — the audio callback of
  `AudioCaptureBase` in `src/audio_loopback/include/audio_loopback/audio_capture.h`.
* `PhaseLockAnalyzer` pieces — `src/src/visualization/phase_lock_analyzer.cpp`.
* `FrequencyAnalyzer` pieces — `src/src/visualization/frequency_analyzer.cpp`.

Machine integers (`size_t`) are modelled as `Nat`; all the modelled index
arithmetic stays far below `2^64`, and the wrap-around subtractions of the
source (for example `(read - write - 1) & mask_` on `size_t`) are written with
an explicit added multiple of the capacity so that no `Nat` truncation occurs;
for positions `< Capacity` the result agrees with the C++ value because the
power-of-two capacity divides `2^64`.  `float` sample values are opaque data
in the buffer claims and are modelled as `ℚ` where their arithmetic matters.
-/

/-- State of `audio::AudioRingBuffer<T, Capacity>`: the backing
`std::array<T, Capacity>` (as a list of length `C`) and the two cursors
`writer_.write_pos` and `reader_.read_pos` (always kept `< C` by the
operations, which store masked values). -/
structure AudioRingBuffer (α : Type) (C : Nat) where
  buf : List α
  writePos : Nat
  readPos : Nat
  deriving Repr, DecidableEq

namespace AudioRingBuffer

variable {α : Type} [Inhabited α] {C : Nat}

/-- Well-formedness: the backing array has length `C` and both cursors are in
range (true of the initial state and preserved by every operation). -/
def WF (rb : AudioRingBuffer α C) : Prop :=
  rb.buf.length = C ∧ rb.writePos < C ∧ rb.readPos < C

instance (rb : AudioRingBuffer α C) : Decidable (WF rb) := by
  unfold WF; infer_instance

/-- Fresh buffer: zero-initialised array, both cursors at 0. -/
def init (α : Type) [Inhabited α] (C : Nat) : AudioRingBuffer α C :=
  ⟨List.replicate C default, 0, 0⟩

/-- Source `available_read`: `(write - read) & mask_` in `size_t` arithmetic;
with both cursors `< C` this equals `(write + C - read) % C`. -/
def available_read (rb : AudioRingBuffer α C) : Nat :=
  (rb.writePos + C - rb.readPos) % C

/-- Source `available_write`: `(read - write - 1) & mask_` in `size_t`
arithmetic; with both cursors `< C` this equals
`(read + 2C - write - 1) % C`. -/
def available_write (rb : AudioRingBuffer α C) : Nat :=
  (rb.readPos + 2 * C - rb.writePos - 1) % C

/-- Source `try_write`: fails (without touching anything) when advancing the
write cursor would collide with the read cursor; otherwise stores the item at
the current write position and advances. -/
def try_write (rb : AudioRingBuffer α C) (item : α) :
    Bool × AudioRingBuffer α C :=
  let write := rb.writePos
  let next_write := (write + 1) % C
  if next_write = rb.readPos then
    (false, rb)
  else
    (true, ⟨rb.buf.set write item, next_write, rb.readPos⟩)

/-- Source `try_read`: returns `none` when the cursors coincide (empty),
otherwise the element at the read cursor, advancing it. -/
def try_read (rb : AudioRingBuffer α C) :
    Option α × AudioRingBuffer α C :=
  let read := rb.readPos
  if read = rb.writePos then
    (none, rb)
  else
    (rb.buf.getD read default, ⟨rb.buf, rb.writePos, (read + 1) % C⟩)

/-- Model of `std::copy_n(src + srcOff, n, dst + dstOff)` on list-backed
arrays: element `srcOff + i` of `src` is stored at index `dstOff + i` of
`dst` for each `i < n`. -/
def copy_n (src : List α) (srcOff n : Nat) (dst : List α) (dstOff : Nat) :
    List α :=
  match n with
  | 0 => dst
  | m + 1 =>
      copy_n src (srcOff + 1) m (dst.set dstOff (src.getD srcOff default))
        (dstOff + 1)

/-- Two-chunk copy used by `write_bulk`: at most two contiguous `std::copy_n`
chunks around the wrap point. -/
def writeChunks (buf : List α) (write : Nat) (items : List α) : List α :=
  let first_chunk := min items.length (C - write)
  let buf1 := copy_n items 0 first_chunk buf write
  if first_chunk < items.length then
    copy_n items first_chunk (items.length - first_chunk) buf1 0
  else
    buf1

/-- Source `write_bulk` (the `count` argument is the length of `items`). -/
def write_bulk (rb : AudioRingBuffer α C) (items : List α) :
    Nat × AudioRingBuffer α C :=
  let write := rb.writePos
  let read := rb.readPos
  let available := (read + 2 * C - write - 1) % C
  let to_write := min items.length available
  if to_write = 0 then (0, rb)
  else
    (to_write,
      ⟨writeChunks (C := C) rb.buf write (items.take to_write),
        (write + to_write) % C, read⟩)

/-- Two-chunk extraction used by `read_bulk` and `peek_bulk`: `n` elements
starting at `pos`, the first `min n (C - pos)` from `pos` on, the remainder
from the start of the array (mirroring the two `std::copy_n` calls). -/
def readChunks (buf : List α) (C pos n : Nat) : List α :=
  let first_chunk := min n (C - pos)
  (buf.drop pos).take first_chunk ++ buf.take (n - first_chunk)

/-- Source `read_bulk`: reads `min count available` items in two contiguous
chunks and advances the read cursor. -/
def read_bulk (rb : AudioRingBuffer α C) (count : Nat) :
    List α × AudioRingBuffer α C :=
  let read := rb.readPos
  let write := rb.writePos
  let available := (write + C - read) % C
  let to_read := min count available
  if to_read = 0 then ([], rb)
  else
    (readChunks rb.buf C read to_read,
      ⟨rb.buf, write, (read + to_read) % C⟩)

/-- Source `peek_bulk`: like `read_bulk` but starting `offset` elements past
the read cursor and leaving the state untouched (the C++ method is `const`
and only ever loads the cursors; in the embedding this is reflected by the
function returning only the extracted elements). -/
def peek_bulk (rb : AudioRingBuffer α C) (count offset : Nat) : List α :=
  let read := rb.readPos
  let write := rb.writePos
  let available := (write + C - read) % C
  if available ≤ offset then []
  else
    let from_pos := (read + offset) % C
    let to_read := min count (available - offset)
    if to_read = 0 then []
    else readChunks rb.buf C from_pos to_read

/-- Abstraction function: the live (written, unread) elements of the buffer
in FIFO order, starting at the read cursor. -/
def absQueue (rb : AudioRingBuffer α C) : List α :=
  (List.range (available_read rb)).map
    (fun i => rb.buf.getD ((rb.readPos + i) % C) default)

/-- Single-element producer/consumer operations (for claims about sequences
of `try_write` and `try_read`). -/
inductive Op (α : Type) where
  | write (a : α)
  | read
  deriving Repr

/-- Effect of one single-element operation on the buffer state. -/
def step (rb : AudioRingBuffer α C) : Op α → AudioRingBuffer α C
  | .write a => (rb.try_write a).2
  | .read => rb.try_read.2

/-- Run a sequence of single-element operations. -/
def runOps (rb : AudioRingBuffer α C) : List (Op α) → AudioRingBuffer α C
  | [] => rb
  | op :: ops => runOps (rb.step op) ops

/-- Bulk operations (for claims about `write_bulk` / `read_bulk`
sequences). -/
inductive BulkOp (α : Type) where
  | bwrite (xs : List α)
  | bread (n : Nat)
  deriving Repr

/-- Run a sequence of bulk operations on the ring buffer, collecting the
lists returned by the reads, and a flag recording whether every `write_bulk`
succeeded in full (returned the count it was given). -/
def runBulk (rb : AudioRingBuffer α C) :
    List (BulkOp α) → AudioRingBuffer α C × List (List α) × Bool
  | [] => (rb, [], true)
  | .bwrite xs :: ops =>
      let r := rb.write_bulk xs
      let rest := runBulk r.2 ops
      (rest.1, rest.2.1, rest.2.2 && decide (r.1 = xs.length))
  | .bread n :: ops =>
      let r := rb.read_bulk n
      let rest := runBulk r.2 ops
      (rest.1, r.1 :: rest.2.1, rest.2.2)

/-- Reference model for `runBulk`: a plain FIFO list.  A bulk write appends
its items, a bulk read takes (and removes) the first `n` elements. -/
def runModel (q : List α) : List (BulkOp α) → List α × List (List α)
  | [] => (q, [])
  | .bwrite xs :: ops => runModel (q ++ xs) ops
  | .bread n :: ops =>
      let rest := runModel (q.drop n) ops
      (rest.1, q.take n :: rest.2)

end AudioRingBuffer

/-- Mutable state of `AudioCaptureBase` touched by `process_audio_callback`:
the sample ring buffer and the `total_samples_` / `overruns_` counters.
Sample values are modelled as `ℚ`. -/
structure CaptureState (C : Nat) where
  rb : AudioRingBuffer ℚ C
  total_samples : Nat
  overruns : Nat
  deriving Repr, DecidableEq

/-- Mono branch of `AudioCaptureBase::process_audio_callback`
(`config_.convert_to_mono` true): for each packet, average the two channels
and `try_write` the result; a failed write bumps `overruns_`, a successful
one bumps `total_samples_`.  No early exit. -/
def processMono {C : Nat} (s : CaptureState C) :
    List (ℚ × ℚ) → CaptureState C
  | [] => s
  | p :: rest =>
      let mono := (p.1 + p.2) * (1 / 2)
      let r := s.rb.try_write mono
      if r.1 then
        processMono ⟨r.2, s.total_samples + 1, s.overruns⟩ rest
      else
        processMono ⟨r.2, s.total_samples, s.overruns + 1⟩ rest

/-- Stereo branch of `AudioCaptureBase::process_audio_callback`
(`config_.convert_to_mono` false): for each packet, the C++ evaluates
`!try_write(packet.left) || !try_write(packet.right)` — so the left write is
always attempted, and the right write is attempted only if the left one
succeeded; if either fails, `overruns_` is bumped once and the loop `break`s,
otherwise `total_samples_` grows by 2. -/
def processStereo {C : Nat} (s : CaptureState C) :
    List (ℚ × ℚ) → CaptureState C
  | [] => s
  | p :: rest =>
      let r1 := s.rb.try_write p.1
      if r1.1 = false then
        ⟨r1.2, s.total_samples, s.overruns + 1⟩
      else
        let r2 := r1.2.try_write p.2
        if r2.1 = false then
          ⟨r2.2, s.total_samples, s.overruns + 1⟩
        else
          processStereo ⟨r2.2, s.total_samples + 2, s.overruns⟩ rest

/-- The full `process_audio_callback` body (the returned `capturing_` flag is
not modelled; the claims are about the buffer and counter effects). -/
def process_audio_callback {C : Nat} (convert_to_mono : Bool)
    (s : CaptureState C) (packets : List (ℚ × ℚ)) : CaptureState C :=
  if convert_to_mono then processMono s packets else processStereo s packets

namespace PhaseLockAnalyzer

/-- Configuration fields of `PhaseLockAnalyzer::Config` used by the modelled
code paths. -/
structure Config where
  phase_smoothing : ℚ
  phase_buffer_size : Nat
  display_samples : Nat
  deriving Repr, DecidableEq

/-- Mutable analyzer state touched by the modelled code paths of
`PhaseLockAnalyzer::analyze` and the EMA-alpha accessors. -/
structure AState where
  phase_write_pos : Nat
  has_reference : Bool
  phase_offset : Nat
  target_phase_offset : Nat
  correlation_history : List ℚ
  ema_alpha : ℚ
  deriving Repr, DecidableEq

/-- Result struct `PhaseLockAnalyzer::State`. -/
structure StateOut where
  best_correlation : ℚ
  has_lock : Bool
  read_position : Nat
  deriving Repr, DecidableEq

/-- Disabled branch of `PhaseLockAnalyzer::analyze` (the `!phase_lock_enabled`
early return): the returned `State` points at the most recent
`display_samples` window, and `has_reference_`, `phase_offset_` and
`correlation_history_` are cleared.  `phase_write_pos_ + N - display_samples`
is `size_t` arithmetic in the source; the model's `Nat` subtraction agrees
with it whenever `display_samples ≤ phase_write_pos_ + N`. -/
def analyzeDisabled (cfg : Config) (st : AState) : StateOut × AState :=
  (⟨0, false,
      (st.phase_write_pos + cfg.phase_buffer_size - cfg.display_samples) %
        cfg.phase_buffer_size⟩,
    { st with
        has_reference := false
        phase_offset := 0
        correlation_history := [] })

/-- Truncation toward zero of a rational, the effect of the C cast
`(int)x` on the (exactly represented) value `x`. -/
def truncTowardZero (q : ℚ) : Int := Int.tdiv q.num q.den

/-- Cursor-smoothing step at the end of `PhaseLockAnalyzer::analyze` (the
`phase_offset_` update): a direct jump to the target when `phase_offset_ == 0`,
otherwise the wraparound-adjusted difference is scaled by
`1 - phase_smoothing`, truncated to `int`, and added modulo the buffer size.
The final `(phase_offset_ + (int)smooth_diff + N) % N` is `size_t`
arithmetic; for `|smooth_diff| ≤ N` no wrap occurs and it agrees with the
integer `emod` used here. -/
def smoothStep (N : Nat) (phase_offset target : Nat) (smoothing : ℚ) : Nat :=
  if phase_offset = 0 then
    target
  else
    let d0 : Int := (target : Int) - (phase_offset : Int)
    let phase_diff : Int :=
      if d0 > ((N / 2 : Nat) : Int) then d0 - (N : Int)
      else if d0 < -((N / 2 : Nat) : Int) then d0 + (N : Int)
      else d0
    let smooth_diff : ℚ := (phase_diff : ℚ) * (1 - smoothing)
    (((phase_offset : Int) + truncTowardZero smooth_diff + (N : Int)) %
        (N : Int)).toNat

/-- Source `set_ema_alpha`: `ema_alpha_ = std::max(0.01f, std::min(0.5f,
alpha))` (on totally ordered values `std::min`/`std::max` coincide with
`min`/`max`). -/
def set_ema_alpha (st : AState) (alpha : ℚ) : AState :=
  { st with ema_alpha := max (1 / 100) (min (1 / 2) alpha) }

/-- Source `get_ema_alpha`. -/
def get_ema_alpha (st : AState) : ℚ := st.ema_alpha

end PhaseLockAnalyzer

namespace FrequencyAnalyzer

/-- Source `visualization::is_power_of_two` (`fft.h`):
`n > 0 && (n & (n - 1)) == 0`. -/
def is_power_of_two (n : Nat) : Bool :=
  decide (0 < n) && (n &&& (n - 1) == 0)

/-- Source rounding loop `size_t n = 1; while (n < fft_size) n <<= 1;`.
The `0 < n` conjunct in the guard is needed for termination of the model;
the source only ever runs the loop from `n = 1`, where it is vacuous. -/
def roundUp (target : Nat) (n : Nat) : Nat :=
  if 0 < n ∧ n < target then roundUp target (n * 2) else n
termination_by target - n
decreasing_by omega

/-- FFT-size validation performed by the `FrequencyAnalyzer` constructor and
`set_config`: keep a power of two, otherwise round up to the next one. -/
def validate_fft_size (s : Nat) : Nat :=
  if is_power_of_two s then s else roundUp s 1

/-- Buffer-relevant state of `FrequencyAnalyzer`: the stored
`config_.fft_size` and the lengths of `audio_buffer_`, `fft_buffer_` and
`current_state_.magnitude_spectrum`. -/
structure FState where
  fft_size : Nat
  audio_buffer_len : Nat
  fft_buffer_len : Nat
  magnitude_spectrum_len : Nat
  deriving Repr, DecidableEq

/-- Source constructor `FrequencyAnalyzer::FrequencyAnalyzer`: validates the
configured FFT size, then resizes all three buffers to it. -/
def construct (cfg_fft_size : Nat) : FState :=
  let n := validate_fft_size cfg_fft_size
  ⟨n, n, n, n⟩

/-- Source `FrequencyAnalyzer::set_config`: when the incoming `fft_size`
differs from the stored one, validate it and resize all buffers; otherwise
only the config is overwritten (the incoming size equals the stored one, so
the stored size is unchanged either way). -/
def set_config (st : FState) (cfg_fft_size : Nat) : FState :=
  if cfg_fft_size ≠ st.fft_size then
    let n := validate_fft_size cfg_fft_size
    ⟨n, n, n, n⟩
  else
    { st with fft_size := cfg_fft_size }

/-- Invariant maintained by `construct` and `set_config`: the stored FFT size
is a power of two (in the sense of the source's own predicate) and all three
buffers have exactly that length. -/
def Inv (st : FState) : Prop :=
  is_power_of_two st.fft_size = true ∧
  st.audio_buffer_len = st.fft_size ∧
  st.fft_buffer_len = st.fft_size ∧
  st.magnitude_spectrum_len = st.fft_size

instance (st : FState) : Decidable (Inv st) := by
  unfold Inv; infer_instance

end FrequencyAnalyzer

/-! ## Theorems -/

/-- Bridge fact justifying the use of `% C` for the source's `& (C - 1)`
index masking: for a power-of-two capacity the two agree. -/
theorem and_mask_eq_mod (x k : Nat) : x &&& (2 ^ k - 1) = x % 2 ^ k :=
  Nat.and_pow_two_sub_one_eq_mod x k

namespace FrequencyAnalyzer

/-- Correctness of the source's bit-trick power-of-two test. -/
theorem is_power_of_two_iff (n : Nat) :
    is_power_of_two n = true ↔ ∃ k, n = 2 ^ k := by
  unfold is_power_of_two
  simp only [Bool.and_eq_true, decide_eq_true_eq, beq_iff_eq]
  constructor
  · rintro ⟨hpos, hand⟩
    obtain ⟨i, hbit, hhigh⟩ := Nat.exists_most_significant_bit (Nat.pos_iff_ne_zero.mp hpos)
    refine ⟨i, ?_⟩
    have hge : 2 ^ i ≤ n := by
      by_contra hlt
      exact absurd (Nat.testBit_eq_false_of_lt (Nat.lt_of_not_le hlt)) (by simp [hbit])
    have hlt : n < 2 ^ (i + 1) := by
      refine Nat.lt_of_testBit (i + 1) (hhigh _ (Nat.lt_succ_self i)) Nat.testBit_two_pow_self ?_
      intro j hj
      rw [hhigh j (Nat.lt_trans (Nat.lt_succ_self i) hj),
        Nat.testBit_two_pow_of_ne (Nat.ne_of_lt hj)]
    by_contra hne
    have hgt : 2 ^ i < n := lt_of_le_of_ne hge (fun h => hne h.symm)
    have hbit' : (n - 1).testBit i = true := by
      rw [Nat.testBit_to_div_mod]
      have hdiv : (n - 1) / 2 ^ i = 1 := by
        refine Nat.div_eq_of_lt_le (by omega) (by omega)
      simp [hdiv]
    have : (n &&& (n - 1)).testBit i = true := by
      rw [Nat.testBit_land, hbit, hbit']; rfl
    rw [hand] at this
    simp at this
  · rintro ⟨k, rfl⟩
    refine ⟨Nat.pos_pow_of_pos k (by norm_num), ?_⟩
    refine Nat.zero_of_testBit_eq_false (fun i => ?_)
    rw [Nat.testBit_land, Nat.testBit_two_pow, Nat.testBit_two_pow_sub_one]
    rcases Nat.lt_or_ge i k with h | h
    · simp [Nat.ne_of_gt h]
    · simp [Nat.not_lt_of_ge h]

/-- The rounding loop keeps its accumulator a power of two. -/
theorem roundUp_pow2 (t i : Nat) : ∃ k, roundUp t (2 ^ i) = 2 ^ k := by
  generalize hm : t - 2 ^ i = m
  induction m using Nat.strong_induction_on generalizing i with
  | _ m ih =>
    rw [roundUp]
    split
    · next h =>
      have h1 : (0 : Nat) < 2 ^ i := Nat.pos_pow_of_pos i (by norm_num)
      have h2 : (2 : Nat) ^ i * 2 = 2 ^ (i + 1) := by ring
      rw [h2]
      have h3 : (0 : Nat) < 2 ^ (i + 1) := Nat.pos_pow_of_pos _ (by norm_num)
      refine ih (t - 2 ^ (i + 1)) ?_ (i + 1) rfl
      have := h.2
      omega
    · exact ⟨i, rfl⟩

/-- The rounding loop reaches at least the target. -/
theorem roundUp_ge (t n : Nat) (hn : 0 < n) : t ≤ roundUp t n := by
  generalize hm : t - n = m
  induction m using Nat.strong_induction_on generalizing n with
  | _ m ih =>
    rw [roundUp]
    split
    · next h => exact ih (t - n * 2) (by omega) (n * 2) (by omega) rfl
    · next h => omega

/-- The rounding loop never overshoots to `2 * target` or beyond (as long as
it starts below that bound). -/
theorem roundUp_lt_double (t n : Nat) (h : n < 2 * t) : roundUp t n < 2 * t := by
  generalize hm : t - n = m
  induction m using Nat.strong_induction_on generalizing n with
  | _ m ih =>
    rw [roundUp]
    split
    · next hg => exact ih (t - n * 2) (by omega) (n * 2) (by omega) rfl
    · next hg => exact h

/-- Validation always yields the least power of two at or above the requested
size (and leaves a power-of-two request unchanged, since then it is itself
that least power). -/
theorem validate_fft_size_spec (s : Nat) :
    (∃ k, validate_fft_size s = 2 ^ k) ∧
    s ≤ validate_fft_size s ∧
    (∀ j, s ≤ 2 ^ j → validate_fft_size s ≤ 2 ^ j) := by
  unfold validate_fft_size
  split
  · next hp =>
    obtain ⟨k, hk⟩ := (is_power_of_two_iff s).mp hp
    exact ⟨⟨k, hk.symm ▸ rfl⟩, le_refl s, fun j hj => hj⟩
  · next hp =>
    have h1 : (1 : Nat) = 2 ^ 0 := rfl
    obtain ⟨k, hk⟩ := h1 ▸ roundUp_pow2 s 0
    refine ⟨⟨k, hk⟩, roundUp_ge s 1 (by norm_num), fun j hj => ?_⟩
    rcases Nat.eq_zero_or_pos s with hs | hs
    · subst hs
      rw [roundUp]
      simp
      exact Nat.one_le_two_pow
    · have hlt : roundUp s 1 < 2 * s := roundUp_lt_double s 1 (by omega)
      have hlt2 : (2 : Nat) ^ k < 2 ^ (j + 1) := by
        calc (2:Nat) ^ k = roundUp s 1 := hk.symm
        _ < 2 * s := hlt
        _ ≤ 2 * 2 ^ j := by omega
        _ = 2 ^ (j + 1) := by ring
      have hkj : k ≤ j := by
        have := (Nat.pow_lt_pow_iff_right (a := 2) (by norm_num)).mp hlt2
        omega
      rw [hk]
      exact Nat.pow_le_pow_right (by norm_num) hkj

end FrequencyAnalyzer

/-- C8: for every configuration passed to `FrequencyAnalyzer`'s constructor
or `set_config`, a non-power-of-two `fft_size` never causes a failure: it is
corrected by rounding up to the next power of two (the least power of two at
or above the request), and afterwards the stored `fft_size` and the buffer
sizes are that power of two.  Under the maintained invariant, `set_config`
produces exactly the state a fresh construction would. -/
theorem frequency_analyzer_fft_size_corrected (cfg : Nat)
    (st : FrequencyAnalyzer.FState) (h : FrequencyAnalyzer.Inv st) :
    (∃ k, (FrequencyAnalyzer.construct cfg).fft_size = 2 ^ k) ∧
    cfg ≤ (FrequencyAnalyzer.construct cfg).fft_size ∧
    (∀ j, cfg ≤ 2 ^ j → (FrequencyAnalyzer.construct cfg).fft_size ≤ 2 ^ j) ∧
    FrequencyAnalyzer.Inv (FrequencyAnalyzer.construct cfg) ∧
    FrequencyAnalyzer.set_config st cfg = FrequencyAnalyzer.construct cfg := by
  obtain ⟨⟨k, hk⟩, hge, hmin⟩ := FrequencyAnalyzer.validate_fft_size_spec cfg
  have hc : FrequencyAnalyzer.construct cfg =
      ⟨FrequencyAnalyzer.validate_fft_size cfg, FrequencyAnalyzer.validate_fft_size cfg,
        FrequencyAnalyzer.validate_fft_size cfg, FrequencyAnalyzer.validate_fft_size cfg⟩ := rfl
  refine ⟨⟨k, by rw [hc]; exact hk⟩, by rw [hc]; exact hge,
    fun j hj => by rw [hc]; exact hmin j hj, ?_, ?_⟩
  · rw [hc]
    refine ⟨?_, rfl, rfl, rfl⟩
    exact (FrequencyAnalyzer.is_power_of_two_iff _).mpr ⟨k, hk⟩
  · unfold FrequencyAnalyzer.set_config
    split
    · rfl
    · next hne =>
      obtain ⟨hpow, ha, hf, hm⟩ := h
      have hcfg : cfg = st.fft_size := by omega
      have hval : FrequencyAnalyzer.validate_fft_size cfg = cfg := by
        unfold FrequencyAnalyzer.validate_fft_size
        rw [hcfg, hpow]
        simp
      rw [hc, hval]
      cases st
      simp only [FrequencyAnalyzer.FState.mk.injEq]
      simp_all

/-- Closed witness for `frequency_analyzer_fft_size_corrected` at the default
state and the misconfigured request 1000 (corrected to 1024). -/
theorem frequency_analyzer_fft_size_corrected_witness :
    (FrequencyAnalyzer.construct 1000).fft_size = 1024 ∧
    FrequencyAnalyzer.set_config ⟨2048, 2048, 2048, 2048⟩ 1000 =
      FrequencyAnalyzer.construct 1000 := by
  have h := frequency_analyzer_fft_size_corrected 1000 ⟨2048, 2048, 2048, 2048⟩
    (by decide)
  refine ⟨?_, h.2.2.2.2⟩
  show FrequencyAnalyzer.validate_fft_size 1000 = 1024
  simp [FrequencyAnalyzer.validate_fft_size, FrequencyAnalyzer.is_power_of_two,
    FrequencyAnalyzer.roundUp]

/-- C10: `set_ema_alpha` clamps into `[0.01, 0.5]` (the float literals of
the source modelled by the rationals they denote) and is the identity on
values already in that interval, as observed through `get_ema_alpha`. -/
theorem set_ema_alpha_clamps (st : PhaseLockAnalyzer.AState) (alpha : ℚ) :
    1 / 100 ≤ PhaseLockAnalyzer.get_ema_alpha (PhaseLockAnalyzer.set_ema_alpha st alpha) ∧
    PhaseLockAnalyzer.get_ema_alpha (PhaseLockAnalyzer.set_ema_alpha st alpha) ≤ 1 / 2 ∧
    (1 / 100 ≤ alpha → alpha ≤ 1 / 2 →
      PhaseLockAnalyzer.get_ema_alpha (PhaseLockAnalyzer.set_ema_alpha st alpha) = alpha) := by
  unfold PhaseLockAnalyzer.get_ema_alpha PhaseLockAnalyzer.set_ema_alpha
  refine ⟨le_max_left _ _, max_le (by norm_num) (min_le_left _ _), fun h1 h2 => ?_⟩
  rw [min_eq_right h2, max_eq_right h1]

/-- Closed witness for `set_ema_alpha_clamps` at `alpha = 1/4`. -/
theorem set_ema_alpha_clamps_witness :
    PhaseLockAnalyzer.get_ema_alpha
      (PhaseLockAnalyzer.set_ema_alpha ⟨0, false, 0, 0, [], 1 / 10⟩ (1 / 4)) = 1 / 4 :=
  (set_ema_alpha_clamps ⟨0, false, 0, 0, [], 1 / 10⟩ (1 / 4)).2.2 (by norm_num) (by norm_num)

/-- C5: with phase lock disabled, `analyze` returns the most recent
`display_samples` window — `read_position` is
`(phase_write_pos + phase_buffer_size - display_samples) % phase_buffer_size`
— with `has_lock` false and `best_correlation` 0, and it clears the
reference flag, the phase offset, and the correlation history, leaving the
write position untouched. -/
theorem analyze_disabled_resets (cfg : PhaseLockAnalyzer.Config)
    (st : PhaseLockAnalyzer.AState) :
    (PhaseLockAnalyzer.analyzeDisabled cfg st).1.read_position =
      (st.phase_write_pos + cfg.phase_buffer_size - cfg.display_samples) %
        cfg.phase_buffer_size ∧
    (PhaseLockAnalyzer.analyzeDisabled cfg st).1.has_lock = false ∧
    (PhaseLockAnalyzer.analyzeDisabled cfg st).1.best_correlation = 0 ∧
    (PhaseLockAnalyzer.analyzeDisabled cfg st).2.has_reference = false ∧
    (PhaseLockAnalyzer.analyzeDisabled cfg st).2.phase_offset = 0 ∧
    (PhaseLockAnalyzer.analyzeDisabled cfg st).2.correlation_history = [] ∧
    (PhaseLockAnalyzer.analyzeDisabled cfg st).2.phase_write_pos =
      st.phase_write_pos :=
  ⟨rfl, rfl, rfl, rfl, rfl, rfl, rfl⟩

/-- Helper for reasoning about `% C` with a variable modulus: a value below
`2 * C` reduces by at most one subtraction. -/
theorem mod_small_cases (C x : Nat) (h : x < 2 * C) :
    x % C = if x < C then x else x - C := by
  split
  · next hlt => exact Nat.mod_eq_of_lt hlt
  · next hge =>
    rw [Nat.mod_eq_sub_mod (by omega)]
    exact Nat.mod_eq_of_lt (by omega)

namespace AudioRingBuffer

variable {α : Type} [Inhabited α] {C : Nat}

/-- Failure condition of `try_write`, read off the definition. -/
theorem try_write_fail_iff (rb : AudioRingBuffer α C) (a : α) :
    (rb.try_write a).1 = false ↔ (rb.writePos + 1) % C = rb.readPos := by
  simp only [try_write]
  split
  · next h => simp [h]
  · next h => simp [h]

/-- On failure `try_write` returns the state unchanged. -/
theorem try_write_fail_unchanged (rb : AudioRingBuffer α C) (a : α)
    (h : (rb.try_write a).1 = false) : (rb.try_write a).2 = rb := by
  simp only [try_write] at h ⊢
  split at h
  · next hc => simp [hc]
  · next hc => simp at h

/-- The abstract queue has exactly `available_read` elements. -/
theorem absQueue_length (rb : AudioRingBuffer α C) :
    (absQueue rb).length = available_read rb := by
  unfold absQueue
  simp

end AudioRingBuffer

/-- C2: along any sequence of `try_write` / `try_read` operations the buffer
never holds more than `C - 1` live elements (the abstract queue has length
`available_read`, and that count stays `≤ C - 1`); `try_write` returns
`false` exactly when `C - 1` elements are resident, and in that case it
writes nothing and leaves the buffer contents and both cursors unchanged. -/
theorem try_write_full_spec {α : Type} [Inhabited α] {C : Nat} (k : Nat)
    (hC : C = 2 ^ k) (rb : AudioRingBuffer α C) (hWF : rb.WF) (a : α)
    (ops : List (AudioRingBuffer.Op α)) :
    (AudioRingBuffer.absQueue rb).length = AudioRingBuffer.available_read rb ∧
    AudioRingBuffer.available_read
      (AudioRingBuffer.runOps (AudioRingBuffer.init α C) ops) ≤ C - 1 ∧
    ((rb.try_write a).1 = false ↔
      AudioRingBuffer.available_read rb = C - 1) ∧
    ((rb.try_write a).1 = false → (rb.try_write a).2 = rb) := by
  have hCpos : 0 < C := hC ▸ Nat.pos_pow_of_pos k (by norm_num)
  obtain ⟨hlen, hw, hr⟩ := hWF
  refine ⟨AudioRingBuffer.absQueue_length rb, ?_, ?_, AudioRingBuffer.try_write_fail_unchanged rb a⟩
  · have : AudioRingBuffer.available_read
        (AudioRingBuffer.runOps (AudioRingBuffer.init α C) ops) < C :=
      Nat.mod_lt _ hCpos
    omega
  · rw [AudioRingBuffer.try_write_fail_iff]
    unfold AudioRingBuffer.available_read
    rw [mod_small_cases C (rb.writePos + 1) (by omega),
      mod_small_cases C (rb.writePos + C - rb.readPos) (by omega)]
    split <;> split <;> omega

/-- Closed witness for `try_write_full_spec`: a full capacity-8 buffer
(7 live elements) rejects a write and is left unchanged. -/
theorem try_write_full_spec_witness :
    ((⟨[0, 1, 2, 3, 4, 5, 6, 7], 7, 0⟩ : AudioRingBuffer ℤ 8).try_write 9).1 = false ∧
    ((⟨[0, 1, 2, 3, 4, 5, 6, 7], 7, 0⟩ : AudioRingBuffer ℤ 8).try_write 9).2 =
      (⟨[0, 1, 2, 3, 4, 5, 6, 7], 7, 0⟩ : AudioRingBuffer ℤ 8) := by
  have h := try_write_full_spec 3 rfl (⟨[0, 1, 2, 3, 4, 5, 6, 7], 7, 0⟩ : AudioRingBuffer ℤ 8)
    (by decide) 9 []
  have hfail : (((⟨[0, 1, 2, 3, 4, 5, 6, 7], 7, 0⟩ : AudioRingBuffer ℤ 8)).try_write 9).1 = false :=
    h.2.2.1.mpr (by decide)
  exact ⟨hfail, h.2.2.2 hfail⟩

/-- C6 counterexample: the source guards the direct jump with
`phase_offset_ == 0`, not with a first-update flag.  With
`phase_buffer_size = 4096` and `phase_smoothing = 1/2`, a cursor at 4095
smoothing toward target 1 lands exactly on 0 (an ordinary smoothed move, not
a reset); the very next call, with target 100, then jumps instantaneously to
100 instead of moving halfway (to 50). -/
theorem smooth_step_counterexample :
    PhaseLockAnalyzer.smoothStep 4096 4095 1 (1 / 2) = 0 ∧
    PhaseLockAnalyzer.smoothStep 4096 0 100 (1 / 2) = 100 ∧
    PhaseLockAnalyzer.smoothStep 4096 0 100 (1 / 2) ≠ 50 := by
  have e2 : PhaseLockAnalyzer.smoothStep 4096 0 100 (1 / 2) = 100 := by
    simp [PhaseLockAnalyzer.smoothStep]
  have e1 : PhaseLockAnalyzer.smoothStep 4096 4095 1 (1 / 2) = 0 := by
    simp only [PhaseLockAnalyzer.smoothStep]
    rw [if_neg (by decide)]
    have hd : (if ((1 : Nat) : Int) - ((4095 : Nat) : Int) > (((4096 : Nat) / 2 : Nat) : Int) then
          ((1 : Nat) : Int) - ((4095 : Nat) : Int) - ((4096 : Nat) : Int)
        else if ((1 : Nat) : Int) - ((4095 : Nat) : Int) < -(((4096 : Nat) / 2 : Nat) : Int) then
          ((1 : Nat) : Int) - ((4095 : Nat) : Int) + ((4096 : Nat) : Int)
        else ((1 : Nat) : Int) - ((4095 : Nat) : Int)) = 2 := by decide
    rw [hd]
    have hq : (((2 : Int) : ℚ)) * (1 - 1 / 2) = 1 := by norm_num
    rw [hq]
    decide
  exact ⟨e1, e2, by rw [e2]; decide⟩

/-- C6 (amended): whenever the live cursor sits at position 0 — which
includes, but is not limited to, the first update after construction or
reset — `analyze` jumps it directly to the target; on every other call the
cursor moves by the integer truncation of `(1 - phase_smoothing)` times the
signed circular distance `d` to the target, where `d` is congruent to
`target - cursor` modulo the buffer size and of magnitude at most half the
buffer size (shortest-path wraparound). -/
theorem smooth_step_spec (N phase_offset target : Nat) (s : ℚ)
    (hN : 0 < N) (hoff : phase_offset < N) (htgt : target < N) :
    (phase_offset = 0 →
      PhaseLockAnalyzer.smoothStep N phase_offset target s = target) ∧
    (phase_offset ≠ 0 → ∃ d : Int,
      (d - ((target : Int) - (phase_offset : Int))) % (N : Int) = 0 ∧
      d.natAbs ≤ N / 2 ∧
      PhaseLockAnalyzer.smoothStep N phase_offset target s =
        (((phase_offset : Int) +
            PhaseLockAnalyzer.truncTowardZero ((d : ℚ) * (1 - s)) + (N : Int)) %
          (N : Int)).toNat) := by
  constructor
  · intro h0
    simp only [PhaseLockAnalyzer.smoothStep, if_pos h0]
  · intro hne
    have hpos : 0 < phase_offset := Nat.pos_of_ne_zero hne
    simp only [PhaseLockAnalyzer.smoothStep, if_neg hne]
    set d0 : Int := (target : Int) - (phase_offset : Int) with hd0
    by_cases h1 : d0 > ((N / 2 : Nat) : Int)
    · refine ⟨d0 - (N : Int), ?_, by omega, by rw [if_pos h1]⟩
      have heq : d0 - (N : Int) - d0 = -(N : Int) := by ring
      rw [heq]
      exact Int.emod_eq_zero_of_dvd (Dvd.intro (-1) (by ring))
    · by_cases h2 : d0 < -((N / 2 : Nat) : Int)
      · refine ⟨d0 + (N : Int), ?_, by omega, by rw [if_neg h1, if_pos h2]⟩
        have heq : d0 + (N : Int) - d0 = (N : Int) := by ring
        rw [heq]
        exact Int.emod_self
      · refine ⟨d0, ?_, by omega, by rw [if_neg h1, if_neg h2]⟩
        simp

/-- Closed witness for `smooth_step_spec`: cursor 100, target 200,
smoothing 1/2 on the default 4096-slot buffer. -/
theorem smooth_step_spec_witness :
    ((0 : Nat) < 4096 ∧ (100 : Nat) < 4096 ∧ (200 : Nat) < 4096) ∧
    ((100 = 0 → PhaseLockAnalyzer.smoothStep 4096 100 200 (1 / 2) = 200) ∧
      ((100 : Nat) ≠ 0 → ∃ d : Int,
        (d - (((200 : Nat) : Int) - ((100 : Nat) : Int))) % ((4096 : Nat) : Int) = 0 ∧
        d.natAbs ≤ 4096 / 2 ∧
        PhaseLockAnalyzer.smoothStep 4096 100 200 (1 / 2) =
          ((((100 : Nat) : Int) +
              PhaseLockAnalyzer.truncTowardZero ((d : ℚ) * (1 - 1 / 2)) +
              ((4096 : Nat) : Int)) % ((4096 : Nat) : Int)).toNat)) :=
  ⟨⟨by decide, by decide, by decide⟩,
    smooth_step_spec 4096 100 200 (1 / 2) (by decide) (by decide) (by decide)⟩

/-- C1 (code bug): in stereo passthrough mode a partial stereo frame can be
written.  With one free slot left (capacity 4, write cursor 2, read cursor
0, so 2 live samples and room for exactly 1 more), processing the packet
`(5, 7)` writes the left sample 5 into slot 2 — `try_write(left)` succeeds —
and only then fails on the right sample, leaving 3 (an odd number of) live
samples in the buffer: the source's `break` comes after the left store, so
"never writing a partial stereo frame" is violated. -/
theorem stereo_partial_frame_written :
    (AudioRingBuffer.available_write
      (⟨⟨[0, 0, 0, 0], 2, 0⟩, 0, 0⟩ : CaptureState 4).rb = 1) ∧
    (processStereo (⟨⟨[0, 0, 0, 0], 2, 0⟩, 0, 0⟩ : CaptureState 4)
        [(5, 7)]).rb.buf.getD 2 0 = 5 ∧
    AudioRingBuffer.available_read
      (processStereo (⟨⟨[0, 0, 0, 0], 2, 0⟩, 0, 0⟩ : CaptureState 4)
        [(5, 7)]).rb = 3 ∧
    (processStereo (⟨⟨[0, 0, 0, 0], 2, 0⟩, 0, 0⟩ : CaptureState 4)
        [(5, 7)]).overruns = 1 ∧
    (processStereo (⟨⟨[0, 0, 0, 0], 2, 0⟩, 0, 0⟩ : CaptureState 4)
        [(5, 7)]).total_samples = 0 := by
  decide

/-- C4 (code bug): the stereo branch bumps `overruns_` once per aborted
packet, not once per dropped sample.  On a full buffer (capacity 4, write
cursor 3, read cursor 0: 3 live samples, 0 free), a packet list of 2 stereo
frames (4 samples) is dropped entirely, yet `overruns` grows by exactly 1,
not 4, and the buffer state is unchanged. -/
theorem overruns_not_per_sample :
    (AudioRingBuffer.available_write
      (⟨⟨[0, 0, 0, 0], 3, 0⟩, 0, 0⟩ : CaptureState 4).rb = 0) ∧
    (processStereo (⟨⟨[0, 0, 0, 0], 3, 0⟩, 0, 0⟩ : CaptureState 4)
        [(1, 2), (3, 4)]).rb = (⟨[0, 0, 0, 0], 3, 0⟩ : AudioRingBuffer ℚ 4) ∧
    (processStereo (⟨⟨[0, 0, 0, 0], 3, 0⟩, 0, 0⟩ : CaptureState 4)
        [(1, 2), (3, 4)]).total_samples = 0 ∧
    (processStereo (⟨⟨[0, 0, 0, 0], 3, 0⟩, 0, 0⟩ : CaptureState 4)
        [(1, 2), (3, 4)]).overruns = 1 := by
  decide

namespace AudioRingBuffer

variable {α : Type} [Inhabited α] {C : Nat}

/-- Reading a just-set index of a list. -/
theorem getD_set_self (l : List α) (i : Nat) (a : α) (h : i < l.length) :
    (l.set i a).getD i default = a := by
  rw [List.getD_eq_getElem?_getD, List.getElem?_set_self', List.getElem?_eq_getElem h]
  rfl

/-- Reading any other index of a list after `set`. -/
theorem getD_set_ne (l : List α) (i j : Nat) (a : α) (h : i ≠ j) :
    (l.set i a).getD j default = l.getD j default := by
  rw [List.getD_eq_getElem?_getD, List.getElem?_set_ne h,
    ← List.getD_eq_getElem?_getD]

/-- `copy_n` never changes the destination length. -/
theorem copy_n_length (src : List α) (o n : Nat) (dst : List α) (d : Nat) :
    (copy_n src o n dst d).length = dst.length := by
  induction n generalizing o dst d with
  | zero => rfl
  | succ m ih => simp only [copy_n, ih, List.length_set]

/-- Pointwise description of `copy_n`: indices inside the destination window
take the corresponding source values, the rest of the destination is
untouched. -/
theorem copy_n_getD (src : List α) (o n : Nat) (dst : List α) (d j : Nat)
    (hj : j < dst.length) :
    (copy_n src o n dst d).getD j default =
      if d ≤ j ∧ j < d + n then src.getD (o + (j - d)) default
      else dst.getD j default := by
  induction n generalizing o dst d with
  | zero =>
    simp only [copy_n]
    rw [if_neg (by omega)]
  | succ m ih =>
    simp only [copy_n]
    rw [ih _ _ _ (by rw [List.length_set]; exact hj)]
    by_cases hwin : d + 1 ≤ j ∧ j < d + 1 + m
    · rw [if_pos hwin, if_pos (by omega)]
      congr 1
      omega
    · rw [if_neg hwin]
      by_cases hja : j = d
      · subst hja
        rw [getD_set_self _ _ _ hj, if_pos (by omega)]
        congr 1
        omega
      · rw [getD_set_ne _ _ _ _ (fun h => hja h.symm), if_neg (by omega)]

/-- The two-chunk extraction equals the circular-index map. -/
theorem readChunks_eq_map (buf : List α) (C pos n : Nat)
    (hlen : buf.length = C) (hpos : pos < C) (hn : n ≤ C) :
    readChunks buf C pos n =
      (List.range n).map (fun i => buf.getD ((pos + i) % C) default) := by
  unfold readChunks
  have hfc : min n (C - pos) ≤ n := Nat.min_le_left _ _
  have hfc2 : min n (C - pos) ≤ C - pos := Nat.min_le_right _ _
  apply List.ext_getElem
  · simp only [List.length_append, List.length_take, List.length_drop,
      List.length_map, List.length_range, hlen]
    omega
  · intro i h1 h2
    simp only [List.length_map, List.length_range] at h2
    rw [List.getElem_map, List.getElem_range]
    by_cases hcase : i < min n (C - pos)
    · rw [List.getElem_append_left (by
        simp only [List.length_take, List.length_drop, hlen]; omega)]
      rw [List.getElem_take, List.getElem_drop]
      have hmod : (pos + i) % C = pos + i := Nat.mod_eq_of_lt (by omega)
      rw [hmod, List.getD_eq_getElem _ _ (by omega)]
    · have hfc3 : min n (C - pos) = C - pos := by omega
      rw [List.getElem_append_right (by
        simp only [List.length_take, List.length_drop, hlen]; omega)]
      simp only [List.length_take, List.length_drop, hlen]
      rw [List.getElem_take]
      have hmod : (pos + i) % C = pos + i - C := by
        rw [mod_small_cases C (pos + i) (by omega)]
        rw [if_neg (by omega)]
      rw [hmod, List.getD_eq_getElem _ _ (by omega)]
      congr 1
      omega

/-- Taking from a mapped range. -/
theorem range_map_take {β : Type} (f : Nat → β) (a b : Nat) :
    ((List.range a).map f).take b = (List.range (min b a)).map f := by
  rw [← List.map_take, List.take_range]

/-- Dropping from a mapped range. -/
theorem range_map_drop {β : Type} [Inhabited β] (f : Nat → β) (a k : Nat) :
    ((List.range a).map f).drop k =
      (List.range (a - k)).map (fun i => f (k + i)) := by
  apply List.ext_getElem
  · simp
  · intro i h1 h2
    simp only [List.length_map, List.length_range] at h2
    rw [List.getElem_drop, List.getElem_map, List.getElem_map,
      List.getElem_range, List.getElem_range]

end AudioRingBuffer

/-- Variant of `mod_small_cases` for values below `3 * C`. -/
theorem mod_small_cases3 (C x : Nat) (h : x < 3 * C) :
    x % C = if x < C then x else if x < 2 * C then x - C else x - 2 * C := by
  split
  · next h1 => exact Nat.mod_eq_of_lt h1
  · next h1 =>
    split
    · next h2 =>
      rw [Nat.mod_eq_sub_mod (by omega)]
      exact Nat.mod_eq_of_lt (by omega)
    · next h2 =>
      have e1 : x % C = (x - C) % C := Nat.mod_eq_sub_mod (by omega)
      have e2 : (x - C) % C = (x - C - C) % C := Nat.mod_eq_sub_mod (by omega)
      rw [e1, e2]
      have e3 : x - C - C = x - 2 * C := by omega
      rw [e3]
      exact Nat.mod_eq_of_lt (by omega)

namespace AudioRingBuffer

variable {α : Type} [Inhabited α] {C : Nat}

/-- The read count is always below the capacity. -/
theorem available_read_lt (rb : AudioRingBuffer α C) (h0 : 0 < C) :
    available_read rb < C :=
  Nat.mod_lt _ h0

/-- One slot is always kept empty: read and write headroom sum to `C - 1`. -/
theorem avail_sum (rb : AudioRingBuffer α C) (hWF : rb.WF) :
    available_read rb + available_write rb = C - 1 := by
  obtain ⟨hlen, hw, hr⟩ := hWF
  unfold available_read available_write
  rw [mod_small_cases C (rb.writePos + C - rb.readPos) (by omega),
    mod_small_cases3 C (rb.readPos + 2 * C - rb.writePos - 1) (by omega)]
  split_ifs <;> omega

/-- The write cursor sits `available_read` slots past the read cursor. -/
theorem read_add_avail (rb : AudioRingBuffer α C) (hWF : rb.WF) :
    (rb.readPos + available_read rb) % C = rb.writePos := by
  obtain ⟨hlen, hw, hr⟩ := hWF
  unfold available_read
  rw [Nat.add_mod_mod]
  have h : rb.readPos + (rb.writePos + C - rb.readPos) = rb.writePos + C := by
    omega
  rw [h, Nat.add_mod_right]
  exact Nat.mod_eq_of_lt hw

/-- Circular indices based at the read cursor are injective below `C`. -/
theorem read_index_inj (rb : AudioRingBuffer α C) (hr : rb.readPos < C)
    (j j' : Nat) (hj : j < C) (hj' : j' < C)
    (heq : (rb.readPos + j) % C = (rb.readPos + j') % C) : j = j' := by
  rw [mod_small_cases C _ (by omega), mod_small_cases C _ (by omega)] at heq
  split_ifs at heq <;> omega

/-- A write-based circular index re-expressed from the read cursor. -/
theorem write_index_shift (rb : AudioRingBuffer α C) (hWF : rb.WF) (i : Nat) :
    (rb.writePos + i) % C = (rb.readPos + (available_read rb + i)) % C := by
  conv_lhs =>
    rw [show rb.writePos = (rb.readPos + available_read rb) % C from
      (read_add_avail rb hWF).symm]
  rw [Nat.mod_add_mod]
  congr 1
  omega

/-- `writeChunks` never changes the backing length. -/
theorem writeChunks_length (buf : List α) (write : Nat) (items : List α) :
    (writeChunks (C := C) buf write items).length = buf.length := by
  simp only [writeChunks]
  split <;> simp [copy_n_length]

/-- Slots covered by a bulk write hold the corresponding items. -/
theorem writeChunks_getD_written (buf : List α) (write : Nat) (items : List α)
    (hlen : buf.length = C) (hw : write < C) (hitems : items.length ≤ C)
    (i : Nat) (hi : i < items.length) :
    (writeChunks (C := C) buf write items).getD ((write + i) % C) default =
      items.getD i default := by
  simp only [writeChunks]
  have hfcw : min items.length (C - write) ≤ C - write := Nat.min_le_right ..
  have hfcL : min items.length (C - write) ≤ items.length := Nat.min_le_left ..
  have hlen1 : (copy_n items 0 (min items.length (C - write)) buf write).length = C := by
    rw [copy_n_length, hlen]
  by_cases hiC : write + i < C
  · have hifc : i < min items.length (C - write) := by omega
    have hmod : (write + i) % C = write + i := Nat.mod_eq_of_lt hiC
    split
    · next hlt =>
      have hfceq : min items.length (C - write) = C - write := by omega
      rw [hmod, copy_n_getD _ _ _ _ _ _ (by omega), if_neg (by omega),
        copy_n_getD _ _ _ _ _ _ (by omega), if_pos (by omega)]
      congr 1
      omega
    · next hlt =>
      rw [hmod, copy_n_getD _ _ _ _ _ _ (by omega), if_pos (by omega)]
      congr 1
      omega
  · have hfceq : min items.length (C - write) = C - write := by omega
    have hfclt : min items.length (C - write) < items.length := by omega
    have hmod : (write + i) % C = write + i - C := by
      rw [mod_small_cases C _ (by omega), if_neg (by omega)]
    split
    · next hlt =>
      rw [hmod, copy_n_getD _ _ _ _ _ _ (by omega), if_pos (by omega)]
      congr 1
      omega
    · next hlt => omega

/-- Slots not covered by a bulk write are untouched. -/
theorem writeChunks_getD_untouched (buf : List α) (write : Nat) (items : List α)
    (hlen : buf.length = C) (hw : write < C) (hitems : items.length ≤ C)
    (j : Nat) (hj : j < C)
    (hout : ∀ i, i < items.length → (write + i) % C ≠ j) :
    (writeChunks (C := C) buf write items).getD j default = buf.getD j default := by
  simp only [writeChunks]
  have hfcw : min items.length (C - write) ≤ C - write := Nat.min_le_right ..
  have hfcL : min items.length (C - write) ≤ items.length := Nat.min_le_left ..
  have hlen1 : (copy_n items 0 (min items.length (C - write)) buf write).length = C := by
    rw [copy_n_length, hlen]
  have hnot1 : ¬(write ≤ j ∧ j < write + min items.length (C - write)) := by
    rintro ⟨h1, h2⟩
    refine hout (j - write) (by omega) ?_
    have h3 : write + (j - write) = j := by omega
    rw [h3, Nat.mod_eq_of_lt hj]
  have hnot2 : min items.length (C - write) < items.length → ¬(j <
      items.length - min items.length (C - write)) := by
    intro hfclt hjlt
    have hfceq : min items.length (C - write) = C - write := by omega
    refine hout (min items.length (C - write) + j) (by omega) ?_
    have h3 : write + (min items.length (C - write) + j) = C + j := by omega
    rw [h3, Nat.add_mod_left, Nat.mod_eq_of_lt hj]
  split
  · next hlt =>
    rw [copy_n_getD _ _ _ _ _ _ (by omega), if_neg (by
        rintro ⟨h1, h2⟩
        exact hnot2 hlt (by omega)),
      copy_n_getD _ _ _ _ _ _ (by omega), if_neg hnot1]
  · next hlt =>
    rw [copy_n_getD _ _ _ _ _ _ (by omega), if_neg hnot1]

end AudioRingBuffer

namespace AudioRingBuffer

variable {α : Type} [Inhabited α] {C : Nat}

/-- Element lookup in the abstract queue. -/
theorem absQueue_getElem (rb : AudioRingBuffer α C) (i : Nat)
    (h : i < (absQueue rb).length) :
    (absQueue rb)[i] = rb.buf.getD ((rb.readPos + i) % C) default := by
  unfold absQueue
  rw [List.getElem_map, List.getElem_range]

/-- Read count after a fully successful bulk write of `L` items. -/
theorem write_bulk_avail (rb : AudioRingBuffer α C) (hWF : rb.WF) (L : Nat)
    (hL : L ≤ available_write rb) :
    ((rb.writePos + L) % C + C - rb.readPos) % C = available_read rb + L := by
  obtain ⟨hlen, hw, hr⟩ := hWF
  have h0 : 0 < C := by omega
  have hLC : L < C := lt_of_le_of_lt hL (Nat.mod_lt _ h0)
  unfold available_write at hL
  unfold available_read
  rw [mod_small_cases3 C (rb.readPos + 2 * C - rb.writePos - 1) (by omega)] at hL
  rw [mod_small_cases C (rb.writePos + L) (by omega)]
  split_ifs with h1
  · rw [mod_small_cases C (rb.writePos + L + C - rb.readPos) (by omega),
      mod_small_cases C (rb.writePos + C - rb.readPos) (by omega)]
    split_ifs at hL ⊢ <;> omega
  · rw [mod_small_cases C (rb.writePos + L - C + C - rb.readPos) (by omega),
      mod_small_cases C (rb.writePos + C - rb.readPos) (by omega)]
    split_ifs at hL ⊢ <;> omega

/-- Read count after a bulk read of `t` items. -/
theorem read_bulk_avail (rb : AudioRingBuffer α C) (hWF : rb.WF) (t : Nat)
    (ht : t ≤ available_read rb) :
    (rb.writePos + C - (rb.readPos + t) % C) % C = available_read rb - t := by
  obtain ⟨hlen, hw, hr⟩ := hWF
  have h0 : 0 < C := by omega
  have htC : t < C := lt_of_le_of_lt ht (Nat.mod_lt _ h0)
  unfold available_read at ht ⊢
  rw [mod_small_cases C (rb.writePos + C - rb.readPos) (by omega)] at ht
  rw [mod_small_cases C (rb.readPos + t) (by omega)]
  split_ifs with h1
  · rw [mod_small_cases C (rb.writePos + C - (rb.readPos + t)) (by omega),
      mod_small_cases C (rb.writePos + C - rb.readPos) (by omega)]
    split_ifs at ht ⊢ <;> omega
  · rw [mod_small_cases C (rb.writePos + C - (rb.readPos + t - C)) (by omega),
      mod_small_cases C (rb.writePos + C - rb.readPos) (by omega)]
    split_ifs at ht ⊢ <;> omega

/-- A fully successful `write_bulk` appends its items to the abstract queue
and preserves well-formedness. -/
theorem write_bulk_full_spec (rb : AudioRingBuffer α C) (hWF : rb.WF)
    (items : List α) (hfull : (rb.write_bulk items).1 = items.length) :
    (rb.write_bulk items).2.WF ∧
    absQueue (rb.write_bulk items).2 = absQueue rb ++ items := by
  have hWF' := hWF
  obtain ⟨hlen, hw, hr⟩ := hWF'
  have h0 : 0 < C := by omega
  simp only [write_bulk] at hfull ⊢
  by_cases hz :
      min items.length ((rb.readPos + 2 * C - rb.writePos - 1) % C) = 0
  · rw [if_pos hz] at hfull ⊢
    dsimp only at hfull ⊢
    have hnil : items = [] := List.length_eq_zero.mp (by omega)
    subst hnil
    simpa using hWF
  · rw [if_neg hz] at hfull ⊢
    dsimp only at hfull ⊢
    have havailW : items.length ≤ available_write rb := by
      have hmin := Nat.min_le_right items.length
        ((rb.readPos + 2 * C - rb.writePos - 1) % C)
      unfold available_write
      omega
    have hbound : available_read rb + items.length ≤ C - 1 := by
      have hs := avail_sum rb hWF
      omega
    rw [hfull, List.take_length]
    have hlen' :
        (writeChunks (C := C) rb.buf rb.writePos items).length = C := by
      rw [writeChunks_length, hlen]
    refine ⟨⟨hlen', Nat.mod_lt _ h0, hr⟩, ?_⟩
    have hAR' : available_read
        (⟨writeChunks (C := C) rb.buf rb.writePos items,
          (rb.writePos + items.length) % C, rb.readPos⟩ : AudioRingBuffer α C) =
        available_read rb + items.length := by
      unfold available_read
      exact write_bulk_avail rb hWF items.length havailW
    apply List.ext_getElem
    · rw [absQueue_length, hAR', List.length_append, absQueue_length]
    · intro i h1 h2
      rw [absQueue_getElem]
      have hi : i < available_read rb + items.length := by
        rw [absQueue_length, hAR'] at h1
        exact h1
      by_cases hcase : i < available_read rb
      · rw [List.getElem_append_left (by rw [absQueue_length]; exact hcase),
          absQueue_getElem]
        exact writeChunks_getD_untouched rb.buf rb.writePos items hlen hw
          (by omega) _ (Nat.mod_lt _ h0) (fun i' hi' heq => by
            rw [write_index_shift rb hWF i'] at heq
            have := read_index_inj rb hr _ _ (by omega) (by omega) heq
            omega)
      · have hidx : (rb.readPos + i) % C =
            (rb.writePos + (i - available_read rb)) % C := by
          rw [write_index_shift rb hWF]
          congr 1
          omega
        rw [hidx,
          writeChunks_getD_written rb.buf rb.writePos items hlen hw (by omega)
            _ (by omega),
          List.getElem_append_right (by rw [absQueue_length]; omega)]
        rw [List.getD_eq_getElem _ _ (by omega)]
        simp only [absQueue_length]

end AudioRingBuffer

namespace AudioRingBuffer

variable {α : Type} [Inhabited α] {C : Nat}

/-- `read_bulk` returns the first `count` elements of the abstract queue and
removes them, preserving well-formedness. -/
theorem read_bulk_spec (rb : AudioRingBuffer α C) (hWF : rb.WF) (n : Nat) :
    (rb.read_bulk n).1 = (absQueue rb).take n ∧
    (rb.read_bulk n).2.WF ∧
    absQueue (rb.read_bulk n).2 = (absQueue rb).drop n := by
  have hWF' := hWF
  obtain ⟨hlen, hw, hr⟩ := hWF'
  have h0 : 0 < C := by omega
  have hARlt : available_read rb < C := available_read_lt rb h0
  simp only [read_bulk]
  by_cases hz : min n ((rb.writePos + C - rb.readPos) % C) = 0
  · rw [if_pos hz]
    dsimp only
    have hmin : n = 0 ∨ available_read rb = 0 := by
      unfold available_read
      omega
    rcases hmin with hn | hA
    · subst hn
      simpa using hWF
    · have hnil : absQueue rb = [] := by
        apply List.length_eq_zero.mp
        rw [absQueue_length, hA]
      rw [hnil]
      simpa using hWF
  · rw [if_neg hz]
    dsimp only
    have htle : min n ((rb.writePos + C - rb.readPos) % C) ≤
        available_read rb := by
      unfold available_read
      omega
    refine ⟨?_, ⟨hlen, hw, Nat.mod_lt _ h0⟩, ?_⟩
    · rw [readChunks_eq_map rb.buf C rb.readPos _ hlen hr (by
        unfold available_read at htle hARlt
        omega)]
      unfold absQueue
      rw [range_map_take]
      rfl
    · apply List.ext_getElem
      · rw [absQueue_length, List.length_drop, absQueue_length]
        show (rb.writePos + C -
            (rb.readPos + min n ((rb.writePos + C - rb.readPos) % C)) % C) % C =
          available_read rb - n
        rw [read_bulk_avail rb hWF _ htle]
        unfold available_read at htle ⊢
        omega
      · intro i h1 h2
        rw [absQueue_getElem, List.getElem_drop, absQueue_getElem]
        have hi : i < available_read rb - n := by
          rw [List.length_drop, absQueue_length] at h2
          exact h2
        have ht : min n ((rb.writePos + C - rb.readPos) % C) = n := by
          unfold available_read at hi
          omega
        show rb.buf.getD
            (((rb.readPos + min n ((rb.writePos + C - rb.readPos) % C)) % C + i) % C)
            default = rb.buf.getD ((rb.readPos + (n + i)) % C) default
        rw [Nat.mod_add_mod, ht]
        congr 2
        omega

/-- Refinement: as long as every bulk write succeeds in full, the ring buffer
behaves exactly like a FIFO list — reads return the same lists and the live
contents match. -/
theorem runBulk_refines (ops : List (BulkOp α)) (rb : AudioRingBuffer α C)
    (hWF : rb.WF) (hok : (runBulk rb ops).2.2 = true) :
    (runBulk rb ops).2.1 = (runModel (absQueue rb) ops).2 ∧
    (runBulk rb ops).1.WF ∧
    absQueue (runBulk rb ops).1 = (runModel (absQueue rb) ops).1 := by
  induction ops generalizing rb with
  | nil => exact ⟨rfl, hWF, rfl⟩
  | cons op ops ih =>
    cases op with
    | bwrite xs =>
      simp only [runBulk, runModel] at hok ⊢
      rw [Bool.and_eq_true, decide_eq_true_eq] at hok
      obtain ⟨hok1, hfull⟩ := hok
      obtain ⟨hwf', habs⟩ := write_bulk_full_spec rb hWF xs hfull
      have hx := ih (rb.write_bulk xs).2 hwf' hok1
      rw [habs] at hx
      exact hx
    | bread n =>
      simp only [runBulk, runModel] at hok ⊢
      obtain ⟨hout, hwf', habs⟩ := read_bulk_spec rb hWF n
      have hx := ih (rb.read_bulk n).2 hwf' hok
      rw [habs] at hx
      exact ⟨by rw [hx.1, hout], hx.2.1, hx.2.2⟩

/-- The fresh buffer holds no live elements. -/
theorem absQueue_init (h0 : 0 < C) : absQueue (init α C) = [] := by
  apply List.length_eq_zero.mp
  rw [absQueue_length]
  unfold available_read init
  simp

/-- The fresh buffer is well-formed. -/
theorem init_WF (h0 : 0 < C) : (init α C).WF := by
  refine ⟨?_, h0, h0⟩
  simp [init]

end AudioRingBuffer

/-- C3: for every sequence of `write_bulk` and `read_bulk` operations in
which each write succeeds in full, the lists returned by `read_bulk` are
exactly those of a plain FIFO queue fed the same operations — the values
written come back in exact write order (and the live buffer contents agree
with the model queue), no matter how often the cumulative write index wraps
past the capacity. -/
theorem bulk_fifo_order {α : Type} [Inhabited α] {C : Nat} (k : Nat)
    (hC : C = 2 ^ k) (ops : List (AudioRingBuffer.BulkOp α))
    (hok : (AudioRingBuffer.runBulk (AudioRingBuffer.init α C) ops).2.2 = true) :
    (AudioRingBuffer.runBulk (AudioRingBuffer.init α C) ops).2.1 =
      (AudioRingBuffer.runModel [] ops).2 ∧
    AudioRingBuffer.absQueue
        (AudioRingBuffer.runBulk (AudioRingBuffer.init α C) ops).1 =
      (AudioRingBuffer.runModel [] ops).1 := by
  have h0 : 0 < C := hC ▸ Nat.pos_pow_of_pos k (by norm_num)
  have h := AudioRingBuffer.runBulk_refines ops (AudioRingBuffer.init α C)
    (AudioRingBuffer.init_WF h0) hok
  rw [AudioRingBuffer.absQueue_init h0] at h
  exact ⟨h.1, h.2.2⟩

/-- Closed witness for `bulk_fifo_order`: four write-6/read-6 cycles on an
8-slot buffer (the cumulative write index reaches 24, three full wraps). -/
theorem bulk_fifo_order_witness :
    (AudioRingBuffer.runBulk (AudioRingBuffer.init ℤ 8)
        [.bwrite [1, 2, 3, 4, 5, 6], .bread 6, .bwrite [7, 8, 9, 10, 11, 12],
          .bread 6, .bwrite [13, 14, 15, 16, 17, 18], .bread 6,
          .bwrite [19, 20, 21, 22, 23, 24], .bread 6]).2.1 =
      (AudioRingBuffer.runModel []
        [.bwrite [1, 2, 3, 4, 5, 6], .bread 6, .bwrite [7, 8, 9, 10, 11, 12],
          .bread 6, .bwrite [13, 14, 15, 16, 17, 18], .bread 6,
          .bwrite [19, 20, 21, 22, 23, 24], .bread 6]).2 ∧
    AudioRingBuffer.absQueue
        (AudioRingBuffer.runBulk (AudioRingBuffer.init ℤ 8)
          [.bwrite [1, 2, 3, 4, 5, 6], .bread 6, .bwrite [7, 8, 9, 10, 11, 12],
            .bread 6, .bwrite [13, 14, 15, 16, 17, 18], .bread 6,
            .bwrite [19, 20, 21, 22, 23, 24], .bread 6]).1 =
      (AudioRingBuffer.runModel []
        [.bwrite [1, 2, 3, 4, 5, 6], .bread 6, .bwrite [7, 8, 9, 10, 11, 12],
          .bread 6, .bwrite [13, 14, 15, 16, 17, 18], .bread 6,
          .bwrite [19, 20, 21, 22, 23, 24], .bread 6]).1 :=
  bulk_fifo_order 3 rfl _ (by decide)

/-- C9: `peek_bulk` is non-destructive — it is a pure function of the state
(the embedded method returns only the extracted elements, mirroring the
`const` C++ method that never stores to a member) — and the elements it
returns are exactly the live elements starting `offset` past the read
cursor: the same elements a subsequent `read_bulk` would deliver after its
first `offset` elements. -/
theorem peek_bulk_nondestructive {α : Type} [Inhabited α] {C : Nat} (k : Nat)
    (hC : C = 2 ^ k) (rb : AudioRingBuffer α C) (hWF : rb.WF)
    (count offset : Nat) :
    rb.peek_bulk count offset =
      ((AudioRingBuffer.absQueue rb).drop offset).take count ∧
    (rb.read_bulk (offset + count)).1.drop offset =
      rb.peek_bulk count offset := by
  have h0 : 0 < C := hC ▸ Nat.pos_pow_of_pos k (by norm_num)
  have hWF' := hWF
  obtain ⟨hlen, hw, hr⟩ := hWF'
  have hARlt : AudioRingBuffer.available_read rb < C :=
    AudioRingBuffer.available_read_lt rb h0
  have hmain : rb.peek_bulk count offset =
      ((AudioRingBuffer.absQueue rb).drop offset).take count := by
    simp only [AudioRingBuffer.peek_bulk]
    by_cases h1 : (rb.writePos + C - rb.readPos) % C ≤ offset
    · rw [if_pos h1]
      have hdrop : (AudioRingBuffer.absQueue rb).drop offset = [] :=
        List.drop_eq_nil_of_le
          (by rw [AudioRingBuffer.absQueue_length]; exact h1)
      rw [hdrop, List.take_nil]
    · rw [if_neg h1]
      by_cases h2 :
          min count ((rb.writePos + C - rb.readPos) % C - offset) = 0
      · rw [if_pos h2]
        have hcnt : count = 0 := by
          unfold AudioRingBuffer.available_read at hARlt
          omega
        subst hcnt
        rw [List.take_zero]
      · rw [if_neg h2]
        rw [AudioRingBuffer.readChunks_eq_map rb.buf C _ _ hlen
          (Nat.mod_lt _ h0) (by
            unfold AudioRingBuffer.available_read at hARlt
            omega)]
        apply List.ext_getElem
        · simp only [List.length_map, List.length_range, List.length_take,
            List.length_drop, AudioRingBuffer.absQueue_length]
          unfold AudioRingBuffer.available_read
          omega
        · intro i hL hR
          simp only [List.length_map, List.length_range] at hL
          rw [List.getElem_map, List.getElem_range, List.getElem_take,
            List.getElem_drop, AudioRingBuffer.absQueue_getElem]
          rw [Nat.mod_add_mod, Nat.add_assoc]
  refine ⟨hmain, ?_⟩
  obtain ⟨hout, -, -⟩ := AudioRingBuffer.read_bulk_spec rb hWF (offset + count)
  rw [hout, hmain, List.drop_take]
  congr 1
  omega

/-- Closed witness for `peek_bulk_nondestructive`: an 8-slot buffer with 5
live elements wrapping the end of the array, peeking 3 elements at offset
1. -/
theorem peek_bulk_nondestructive_witness :
    (⟨[10, 11, 12, 13, 14, 15, 16, 17], 3, 6⟩ :
        AudioRingBuffer ℤ 8).peek_bulk 3 1 =
      ((AudioRingBuffer.absQueue
          (⟨[10, 11, 12, 13, 14, 15, 16, 17], 3, 6⟩ :
            AudioRingBuffer ℤ 8)).drop 1).take 3 ∧
    ((⟨[10, 11, 12, 13, 14, 15, 16, 17], 3, 6⟩ :
        AudioRingBuffer ℤ 8).read_bulk (1 + 3)).1.drop 1 =
      (⟨[10, 11, 12, 13, 14, 15, 16, 17], 3, 6⟩ :
        AudioRingBuffer ℤ 8).peek_bulk 3 1 :=
  peek_bulk_nondestructive 3 rfl _ (by decide) 3 1
